import Mathlib

/-!
Verification of the coordinate-extraction core of `GPS_Extract.py`.

The program scans a byte buffer for ASCII-encoded decimal numbers
(regex `[-+]?(?:\d{1,3}\.\d+|\d+\.\d{1,})(?:[eE][-+]?\d+)?`), pairs
nearby numbers that fall into valid longitude/latitude ranges,
deduplicates the candidates on a 7-decimal rounded key, selects a
candidate by a two-phase policy (target match, then earliest byte
position), and renders the result as a small text artifact.

Modelling conventions:
* byte buffers are `List Nat` (each entry one byte value);
* Python floats are modelled as exact rationals `ℚ` (decimal literals
  are taken at face value; binary-double representation error is below
  the abstraction level of the claims, which are structural);
* byte offsets are `Int`, matching Python's unbounded integers;
* the regex engine's leftmost, first-alternative, greedy-backtracking
  semantics is modelled concretely for this one pattern (see the doc
  comments on `alt1Len`, `alt2Len`, `expLen`, `matchList`).
-/

namespace GPSExtract

/-- ASCII digit test: bytes 48..57 are the characters 0..9 (regex `\d`). -/
def isDigitByte (b : Nat) : Bool := 48 ≤ b && b ≤ 57

/-- ASCII sign test: byte 43 is `+` and byte 45 is `-` (regex `[-+]`). -/
def isSignByte (b : Nat) : Bool := b == 43 || b == 45

/-- Length of the maximal run of ASCII digit bytes at the head of the list.
This is what a greedy `\d+` (or `\d{1,3}` capped at 3) consumes. -/
def digitRunLen : List Nat → Nat
  | [] => 0
  | b :: rest => if isDigitByte b then digitRunLen rest + 1 else 0

/-- Match length of the first regex alternative `\d{1,3}\.\d+` at the head of
`l`, under greedy backtracking semantics.  A greedy `\d{1,3}` tries the
largest available digit count first; any count smaller than the full digit
run is followed by a further digit, never by `.` (byte 46), so the only
viable count is the full run itself, provided it is between 1 and 3.  The
trailing `\d+` takes its maximal run (what follows a maximal run can never
be a digit, so no backtracking arises). -/
def alt1Len (l : List Nat) : Option Nat :=
  let r := digitRunLen l
  let f := digitRunLen (l.drop (r + 1))
  if 1 ≤ r ∧ r ≤ 3 ∧ l.getD r 0 = 46 ∧ 1 ≤ f then some (r + 1 + f) else none

/-- Match length of the second regex alternative `\d+\.\d{1,}` at the head of
`l`, under greedy backtracking semantics.  The leading greedy `\d+` must end
exactly at the `.`: any shorter prefix is followed by a digit, not `.`. -/
def alt2Len (l : List Nat) : Option Nat :=
  let r := digitRunLen l
  let f := digitRunLen (l.drop (r + 1))
  if 1 ≤ r ∧ l.getD r 0 = 46 ∧ 1 ≤ f then some (r + 1 + f) else none

/-- Match length of `(?:\d{1,3}\.\d+|\d+\.\d{1,})`: Python's alternation is
ordered, trying the first alternative and falling back to the second. -/
def mantissaLen (l : List Nat) : Option Nat :=
  match alt1Len l with
  | some m => some m
  | none => alt2Len l

/-- Match length of the optional exponent group `(?:[eE][-+]?\d+)?` at the
head of `l`; `0` means the group matched empty.  The group needs an `e`
(101) or `E` (69), then the greedy `[-+]?` tries the sign branch first;
if a sign is present but no digit follows, the sign-less branch also fails
(a sign byte is not a digit), so the whole group matches empty. -/
def expLen : List Nat → Nat
  | b :: c :: rest =>
    if b = 101 ∨ b = 69 then
      if isSignByte c then
        if 1 ≤ digitRunLen rest then 2 + digitRunLen rest else 0
      else if isDigitByte c then 1 + digitRunLen (c :: rest)
      else 0
    else 0
  | _ => 0

/-- Match length of the whole pattern
`[-+]?(?:\d{1,3}\.\d+|\d+\.\d{1,})(?:[eE][-+]?\d+)?` at the head of `l`,
or `none` when the pattern does not match there.  The greedy `[-+]?` with a
sign byte present commits to the sign: if the mantissa then fails, the
sign-less branch starts at the sign byte, which is not a digit, and fails
as well. -/
def matchList (l : List Nat) : Option Nat :=
  match l with
  | [] => none
  | b :: rest =>
    if isSignByte b then
      (mantissaLen rest).map (fun m => 1 + m + expLen (rest.drop m))
    else
      (mantissaLen (b :: rest)).map (fun m => m + expLen ((b :: rest).drop m))

/-- One step of `re.finditer`: starting the search at byte position `p`,
try to match at `p`; on success emit `(start, length)` and resume right
after the match (the pattern never matches empty: a match consumes at
least a digit, a point and a digit, as the termination proof rechecks);
on failure retry at `p + 1`.  This is the leftmost, non-overlapping
scan Python's `finditer` performs. -/
def scanAux (data : List Nat) (p : Nat) : List (Nat × Nat) :=
  if _hp : p < data.length then
    match hm : matchList (data.drop p) with
    | some len => (p, len) :: scanAux data (p + len)
    | none => scanAux data (p + 1)
  else []
  termination_by data.length - p
  decreasing_by
  · have hpos : 0 < len := by
      rcases hl : data.drop p with - | ⟨b, rest⟩
      · rw [hl] at hm; exact absurd hm (by simp [matchList])
      · rw [hl] at hm
        simp only [matchList] at hm
        have halt1 : ∀ l' m', alt1Len l' = some m' → 3 ≤ m' := by
          intro l' m' h12
          simp only [alt1Len] at h12
          split at h12
          · rename_i hc
            obtain ⟨hc1, -, -, hc4⟩ := hc
            injection h12 with h12
            omega
          · exact absurd h12 (by simp)
        have halt2 : ∀ l' m', alt2Len l' = some m' → 3 ≤ m' := by
          intro l' m' h12
          simp only [alt2Len] at h12
          split at h12
          · rename_i hc
            obtain ⟨hc1, -, hc3⟩ := hc
            injection h12 with h12
            omega
          · exact absurd h12 (by simp)
        have hmant : ∀ l' m', mantissaLen l' = some m' → 3 ≤ m' := by
          intro l' m' hm2
          unfold mantissaLen at hm2
          split at hm2
          · rename_i m3 h12
            injection hm2 with hm2
            exact hm2 ▸ halt1 _ _ h12
          · exact halt2 _ _ hm2
        split at hm
        · rcases h2 : mantissaLen rest with - | m
          · rw [h2] at hm; exact absurd hm (by simp)
          · rw [h2] at hm
            have h3 : some (1 + m + expLen (rest.drop m)) = some len := hm
            injection h3 with h3
            omega
        · rcases h2 : mantissaLen (b :: rest) with - | m
          · rw [h2] at hm; exact absurd hm (by simp)
          · rw [h2] at hm
            have h3 : some (m + expLen ((b :: rest).drop m)) = some len := hm
            injection h3 with h3
            have := hmant _ _ h2
            omega
    omega
  · omega

/-- All matches of `FLOAT_RE.finditer(data)`, as `(start, length)` pairs. -/
def floatScan (data : List Nat) : List (Nat × Nat) := scanAux data 0

/-- The matched substring (`m.group(0)`) of a scan entry. -/
def token (data : List Nat) (m : Nat × Nat) : List Nat :=
  (data.drop m.1).take m.2

/-- Read the maximal leading digit run: returns its value, its length and
the remaining bytes. -/
def readNat : List Nat → Nat × Nat × List Nat
  | [] => (0, 0, [])
  | b :: rest =>
    if isDigitByte b then
      let (v, c, r) := readNat rest
      ((b - 48) * 10 ^ c + v, c + 1, r)
    else (0, 0, b :: rest)

/-- Exponent digits of a float literal: after `e`/`E` and an optional sign,
Python's `float` requires at least one digit and then the end of the string.
Returns the scale factor `10^e` (or its inverse for a negative sign). -/
def expDigits (l : List Nat) (pos : Bool) : Option ℚ :=
  let (e, ce, r) := readNat l
  if ce = 0 then none
  else if r = [] then some (if pos then (10 : ℚ) ^ e else ((10 : ℚ) ^ e)⁻¹)
  else none

/-- Tail of a float literal after the mantissa: either the end of the string
(scale 1) or an exponent part `e`/`E`, optional sign, digits, end. -/
def parseExpTail : List Nat → Option ℚ
  | [] => some 1
  | b :: rest =>
    if b = 101 ∨ b = 69 then
      match rest with
      | 45 :: r2 => expDigits r2 false
      | 43 :: r2 => expDigits r2 true
      | _ => expDigits rest true
    else none

/-- Unsigned part of a Python float literal: digit run, optionally a `.`
(byte 46) and a second digit run (at least one digit on one of the two
sides), then the exponent tail.  Anything else is rejected, as `float`
raises `ValueError` on it. -/
def parseUnsigned (l : List Nat) : Option ℚ :=
  let (i, ci, r1) := readNat l
  match r1 with
  | 46 :: r2 =>
    let (f, cf, r3) := readNat r2
    if ci + cf = 0 then none
    else (parseExpTail r3).map (fun s => ((i : ℚ) + (f : ℚ) / 10 ^ cf) * s)
  | _ =>
    if ci = 0 then none else (parseExpTail r1).map (fun s => (i : ℚ) * s)

/-- Models `float(tok.decode('ascii'))` on a scanner token: `decode('ascii')`
fails on any byte ≥ 128, and `float` parses an optional sign followed by the
unsigned literal.  (The `inf`/`nan`/underscore/whitespace forms `float` also
accepts can never be produced by the scanner's regex and are immaterial
here; on them this model returns `none`.) -/
def parseFloatTok (tok : List Nat) : Option ℚ :=
  if tok.any (fun b => 128 ≤ b) then none
  else
    match tok with
    | [] => none
    | b :: rest =>
      if b = 45 then (parseUnsigned rest).map (fun q => -q)
      else if b = 43 then parseUnsigned rest
      else parseUnsigned (b :: rest)

/-- Embedding of `find_floats_in_bytes`: one `(offset, value)` entry per
regex match whose token decodes and parses; a failing token is silently
dropped (`try`/`except`/`continue` becomes `filterMap`). -/
def find_floats_in_bytes (data : List Nat) : List (Nat × ℚ) :=
  (floatScan data).filterMap
    (fun m => (parseFloatTok (token data m)).map (fun v => (m.1, v)))

/-- A candidate coordinate pair: byte offsets of the two source matches and
the longitude/latitude reading.  Python represents this as the tuple
`(pos1, pos2, lon, lat)` (and later reorders it to `(lon, lat, pos1, pos2)`
in `unique`; we keep one named structure throughout). -/
structure CoordinatePair where
  pos1 : Int
  pos2 : Int
  lon : ℚ
  lat : ℚ
deriving DecidableEq, Repr

instance : Inhabited CoordinatePair := ⟨⟨0, 0, 0, 0⟩⟩

/-- Emission of the direct reading for one `(i, j)` combination:
`if -180.0 <= v1 <= 180.0 and -90.0 <= v2 <= 90.0: pairs.append((pos1, pos2, v1, v2))`. -/
def directEmit (p1 p2 : Int) (v1 v2 : ℚ) : List CoordinatePair :=
  if -180 ≤ v1 ∧ v1 ≤ 180 ∧ -90 ≤ v2 ∧ v2 ≤ 90 then [⟨p1, p2, v1, v2⟩] else []

/-- Emission of the swapped reading for one `(i, j)` combination:
`if -180.0 <= v2 <= 180.0 and -90.0 <= v1 <= 90.0: pairs.append((pos1, pos2, v2, v1))`.
Note the offsets stay in place; only the values swap roles. -/
def swapEmit (p1 p2 : Int) (v1 v2 : ℚ) : List CoordinatePair :=
  if -180 ≤ v2 ∧ v2 ≤ 180 ∧ -90 ≤ v1 ∧ v1 ≤ 90 then [⟨p1, p2, v2, v1⟩] else []

/-- Inner loop of `find_coordinate_pairs` for a fixed outer element
`(pos1, v1)`: walk the later elements, `break` as soon as
`pos2 - pos1 > max_byte_distance`, otherwise append the direct and then the
swapped emission. -/
def pairsInner (p1 : Int) (v1 : ℚ) (W : Int) : List (Int × ℚ) → List CoordinatePair
  | [] => []
  | (p2, v2) :: rest =>
    if W < p2 - p1 then []
    else (directEmit p1 p2 v1 v2 ++ swapEmit p1 p2 v1 v2) ++ pairsInner p1 v1 W rest

/-- Embedding of `find_coordinate_pairs(floats, max_byte_distance)`: the
outer loop runs `i` over all indices, i.e. over all suffixes. -/
def find_coordinate_pairs : List (Int × ℚ) → Int → List CoordinatePair
  | [], _ => []
  | (p1, v1) :: rest, W => pairsInner p1 v1 W rest ++ find_coordinate_pairs rest W

/-- Rounding to 7 decimal places, modelling Python's `round(x, 7)`.
(Python breaks exact halfway ties to even; this model rounds them up.
No claim depends on the tie direction.) -/
def round7 (x : ℚ) : ℚ := (round (x * 10000000) : ℤ) / 10000000

/-- Embedding of `canonical_pair(lon, lat)`: the deduplication key
`(round(lat, 7), round(lon, 7))`. -/
def canonical_pair (lon lat : ℚ) : ℚ × ℚ := (round7 lat, round7 lon)

/-- The deduplication key of a candidate. -/
def keyOf (p : CoordinatePair) : ℚ × ℚ := canonical_pair p.lon p.lat

/-- Deduplication loop with the `seen` set accumulated so far (Python's
`set` of keys is modelled as the list of inserted keys with membership). -/
def dedupAux (seen : List (ℚ × ℚ)) : List CoordinatePair → List CoordinatePair
  | [] => []
  | p :: rest =>
    if keyOf p ∈ seen then dedupAux seen rest
    else p :: dedupAux (keyOf p :: seen) rest

/-- Embedding of the `unique`-building loop in `main`: keep the first
candidate for each canonical key, in discovery order. -/
def dedup (pairs : List CoordinatePair) : List CoordinatePair := dedupAux [] pairs

/-- Hard-coded target latitude `37.9361` of `main`. -/
def target_lat : ℚ := 37.9361

/-- Hard-coded target longitude `-122.0591` of `main`. -/
def target_lon : ℚ := -122.0591

/-- Hard-coded tolerance `1e-4` of `main`. -/
def tol : ℚ := 1 / 10000

/-- The target-phase test of `main`:
`abs(lat_c - target_lat) <= tol and abs(lon_c - target_lon) <= tol`. -/
def withinTol (c : CoordinatePair) : Bool :=
  decide (|c.lat - target_lat| ≤ tol ∧ |c.lon - target_lon| ≤ tol)

/-- Target phase of the Selector: first candidate within tolerance of the
target, scanning in discovery order and stopping at the first hit
(`for ... if ...: chosen = ...; break`). -/
def targetPhase : List CoordinatePair → Option CoordinatePair
  | [] => none
  | c :: rest => if withinTol c then some c else targetPhase rest

/-- The fallback sort key `min(item[2], item[3])`, i.e. `min(pos1, pos2)`. -/
def minpos (c : CoordinatePair) : Int := min c.pos1 c.pos2

/-- Embedding of `sorted(unique, key=lambda item: min(item[2], item[3]))`.
Python's `sorted` is a stable sort by the key, and the output of a stable
sort is uniquely determined by (key-sortedness, stability); Mathlib's
`insertionSort` with this relation is such a stable sort (an earlier
element is inserted before later elements with an equal key). -/
def sortByMinPos (l : List CoordinatePair) : List CoordinatePair :=
  l.insertionSort (fun a b => minpos a ≤ minpos b)

/-- Fallback phase of the Selector:
`if chosen is None and unique: chosen = sorted(unique, key=...)[0]`
(a non-empty Python list is truthy; an empty one is falsy). -/
def fallbackPhase (unique : List CoordinatePair) : Option CoordinatePair :=
  if unique.isEmpty then none else (sortByMinPos unique).head?

/-- The whole two-phase Selector of `main`. -/
def select (unique : List CoordinatePair) : Option CoordinatePair :=
  match targetPhase unique with
  | some c => some c
  | none => fallbackPhase unique

/-- Decimal digit characters of a natural number, most significant first
(no leading zeros except for the number 0 itself). -/
def natDigitsAux : Nat → Nat → List Char
  | 0, _ => []
  | fuel + 1, n =>
    if n < 10 then [Char.ofNat (48 + n)]
    else natDigitsAux fuel (n / 10) ++ [Char.ofNat (48 + n % 10)]

/-- Decimal digit characters of a natural number. -/
def natDigits (n : Nat) : List Char := natDigitsAux (n + 1) n

/-- The exactly-seven fractional digits of `%.7f`, most significant first,
for a fractional numerator `m < 10^7`. -/
def fracDigits7 (m : Nat) : List Char :=
  (List.range 7).reverse.map (fun i => Char.ofNat (48 + m / 10 ^ i % 10))

/-- Models Python's fixed-point formatting `f'{x:.7f}'`: round the value to
7 decimal places and print sign, integer digits, a point and exactly seven
fractional digits.  (Python rounds exact decimal halves of the underlying
double to even; the model rounds them up.  Python also prints `-` for
negative values rounding to zero, as does the model via the sign of `x`.) -/
def format7 (x : ℚ) : String :=
  let n : ℤ := round (x * 10000000)
  let a : Nat := n.natAbs
  (if x < 0 then "-" else "") ++ String.mk (natDigits (a / 10000000))
    ++ "." ++ String.mk (fracDigits7 (a % 10000000))

/-- The Output Formatter of `main`: the found shape writes the header line
and one data line; the not-found shape writes the single diagnostic line.
(`if not chosen:` on a `None`-or-4-tuple value tests exactly for `None`,
since a 4-tuple is always truthy.) -/
def formatOutput (chosen : Option CoordinatePair) (inp : String) : String :=
  match chosen with
  | none => "No longitude/latitude found in " ++ inp ++ "\n"
  | some c =>
    "longitude,latitude\n" ++ format7 c.lon ++ "," ++ format7 c.lat ++ "\n"

/-- Observable result of one run of `main`: either it returns an exit code
without having written the output file, or it writes the output text and
returns an exit code. -/
inductive RunResult where
  | noOutput (code : Nat)
  | wrote (text : String) (code : Nat)
deriving DecidableEq, Repr

/-- The float list `main` builds from the input bytes (offsets widened from
`Nat` to `Int`). -/
def mainFloats (data : List Nat) : List (Int × ℚ) :=
  (find_floats_in_bytes data).map (fun m => ((m.1 : Int), m.2))

/-- The candidate list of `main`:
`find_coordinate_pairs(floats, max_byte_distance=300)`. -/
def mainPairs (data : List Nat) : List CoordinatePair :=
  find_coordinate_pairs (mainFloats data) 300

/-- The deduplicated candidate list of `main`. -/
def mainUnique (data : List Nat) : List CoordinatePair :=
  dedup (mainPairs data)

/-- The Selection of `main`. -/
def mainChosen (data : List Nat) : Option CoordinatePair :=
  select (mainUnique data)

/-- Embedding of `main`, abstracted over the filesystem: `inputExists`
models `os.path.exists(inp)`, `data` the bytes read from the input file and
`inp` the expanded input path.  A missing input returns exit code 2 before
the output file is opened; otherwise the artifact is written and the exit
code is 0 (both in the found and in the not-found outcome). -/
def gps_main (inputExists : Bool) (data : List Nat) (inp : String) : RunResult :=
  if inputExists = false then .noOutput 2
  else .wrote (formatOutput (mainChosen data) inp) 0

/-- Indexing of the float list used by the index-level description of the
Pair Finder (`floats[i]` of the Python loops). -/
def fAt (floats : List (Int × ℚ)) (i : Nat) : Int × ℚ := floats.getD i (0, 0)

/-- The emissions of one index pair `(i, j)`: the direct reading, then the
swapped reading. -/
def emitIJ (floats : List (Int × ℚ)) (i j : Nat) : List CoordinatePair :=
  directEmit (fAt floats i).1 (fAt floats j).1 (fAt floats i).2 (fAt floats j).2 ++
    swapEmit (fAt floats i).1 (fAt floats j).1 (fAt floats i).2 (fAt floats j).2

/-- Index-level description of the Pair Finder output: over all index pairs
`i < j` whose offsets are within the window, in lexicographic `(i, j)`
order, the direct emission followed by the swapped emission. -/
def pairsSpec (floats : List (Int × ℚ)) (W : Int) : List CoordinatePair :=
  (List.range floats.length).flatMap fun i =>
    ((List.range floats.length).filter fun j =>
      decide (i < j ∧ (fAt floats j).1 - (fAt floats i).1 ≤ W)).flatMap
        (emitIJ floats i)

/-- Indexing of a candidate list (`pairs[i]` at the specification level). -/
def pAt (l : List CoordinatePair) (i : Nat) : CoordinatePair := l.getD i default

/-- Deduplication loop description relative to an initial `seen` set: keep
position `i` iff its key is not in `seen` and no earlier position has the
same key. -/
def dedupSpecAux (seen : List (ℚ × ℚ)) (l : List CoordinatePair) :
    List CoordinatePair :=
  ((List.range l.length).filter fun i =>
    decide (keyOf (pAt l i) ∉ seen ∧
      ∀ j, j < i → keyOf (pAt l j) ≠ keyOf (pAt l i))).map (pAt l)

/-- Specification of the Deduplicator: keep exactly the pairs whose key has
not occurred at any earlier position, unchanged and in original order. -/
def dedupSpec (l : List CoordinatePair) : List CoordinatePair :=
  ((List.range l.length).filter fun i =>
    decide (∀ j, j < i → keyOf (pAt l j) ≠ keyOf (pAt l i))).map (pAt l)

/-- All bytes of a list are ASCII digits. -/
def allDigits (l : List Nat) : Prop := ∀ b ∈ l, isDigitByte b = true

/-- An optional sign: empty, or one `+`/`-` byte. -/
def signOpt (s : List Nat) : Prop :=
  s = [] ∨ ∃ c, s = [c] ∧ isSignByte c = true

/-- The optional exponent suffix of the number grammar: empty, or `e`/`E`,
an optional sign and one-or-more digits. -/
def expGrammar (e : List Nat) : Prop :=
  e = [] ∨ ∃ b s ds, e = b :: (s ++ ds) ∧ (b = 101 ∨ b = 69) ∧ signOpt s ∧
    ds ≠ [] ∧ allDigits ds

/-- The mantissa of the number grammar: EITHER 1–3 digits, `.`, one-or-more
digits, OR one-or-more digits, `.`, one-or-more digits. -/
def mantissaGrammar (m : List Nat) : Prop :=
  (∃ d1 d2, m = d1 ++ 46 :: d2 ∧ d1 ≠ [] ∧ d1.length ≤ 3 ∧ allDigits d1 ∧
    d2 ≠ [] ∧ allDigits d2) ∨
  (∃ d1 d2, m = d1 ++ 46 :: d2 ∧ d1 ≠ [] ∧ allDigits d1 ∧
    d2 ≠ [] ∧ allDigits d2)

/-- The number grammar of the Float Scanner: optional sign, mantissa,
optional exponent suffix. -/
def tokenGrammar (t : List Nat) : Prop :=
  ∃ s m e, t = s ++ m ++ e ∧ signOpt s ∧ mantissaGrammar m ∧ expGrammar e

/-- A string showing exactly seven decimal places: some text, a point, and
exactly seven digit characters to its right. -/
def sevenDecimals (s : String) : Prop :=
  ∃ t ds, s = t ++ "." ++ String.mk ds ∧ ds.length = 7 ∧
    ∀ c ∈ ds, c.isDigit = true

/-! ### Selector lemmas -/

theorem targetPhase_eq_none {l : List CoordinatePair}
    (hall : ∀ c ∈ l, withinTol c = false) : targetPhase l = none := by
  induction l with
  | nil => rfl
  | cons d t ih =>
    have hd := hall d (by simp)
    simp only [targetPhase, hd]
    exact ih fun c hc => hall c (by simp [hc])

theorem targetPhase_first {l1 : List CoordinatePair} {c : CoordinatePair}
    (l2 : List CoordinatePair) (h1 : ∀ d ∈ l1, withinTol d = false)
    (hc : withinTol c = true) : targetPhase (l1 ++ c :: l2) = some c := by
  induction l1 with
  | nil => simp [targetPhase, hc]
  | cons d t ih =>
    have hd := h1 d (by simp)
    simp only [List.cons_append, targetPhase, hd]
    exact ih fun d' hd' => h1 d' (by simp [hd'])

theorem sortByMinPos_head : ∀ l : List CoordinatePair, l ≠ [] →
    ∃ l1 c l2, l = l1 ++ c :: l2 ∧ (sortByMinPos l).head? = some c ∧
      (∀ d ∈ l1, minpos c < minpos d) ∧ ∀ d ∈ l, minpos c ≤ minpos d := by
  intro l
  induction l with
  | nil => intro h; exact absurd rfl h
  | cons x rest ih =>
    intro _
    rcases hrest : rest with - | ⟨y, t0⟩
    · exact ⟨[], x, [], rfl, rfl, by simp, by simp⟩
    rw [← hrest]
    have hne : rest ≠ [] := by rw [hrest]; simp
    obtain ⟨r1, c', r2, hdec, hhead, hlt, hle⟩ := ih hne
    rcases hs : sortByMinPos rest with - | ⟨c'', tail⟩
    · rw [hs] at hhead; exact absurd hhead (by simp)
    rw [hs] at hhead
    have hc'' : c'' = c' := by simpa using hhead
    rw [hc''] at hs
    have hsort : sortByMinPos (x :: rest) =
        List.orderedInsert (fun a b => minpos a ≤ minpos b) x (c' :: tail) := by
      simp only [sortByMinPos, List.insertionSort]
      rw [show List.insertionSort (fun a b => minpos a ≤ minpos b) rest
            = c' :: tail from hs]
    by_cases hcmp : minpos x ≤ minpos c'
    · refine ⟨[], x, rest, rfl, ?_, by simp, ?_⟩
      · rw [hsort,
          List.orderedInsert_of_le (fun a b => minpos a ≤ minpos b) tail hcmp]
        rfl
      · intro d hd
        rcases List.mem_cons.mp hd with rfl | hd
        · exact le_refl _
        · exact le_trans hcmp (hle d hd)
    · have hcmp' : minpos c' < minpos x := lt_of_not_le hcmp
      refine ⟨x :: r1, c', r2, by rw [hdec]; rfl, ?_, ?_, ?_⟩
      · rw [hsort]
        simp only [List.orderedInsert]
        rw [if_neg hcmp]
        rfl
      · intro d hd
        rcases List.mem_cons.mp hd with rfl | hd
        · exact hcmp'
        · exact hlt d hd
      · intro d hd
        rcases List.mem_cons.mp hd with rfl | hd
        · exact le_of_lt hcmp'
        · exact hle d hd

theorem select_eq_fallback {l : List CoordinatePair}
    (hall : ∀ c ∈ l, withinTol c = false) : select l = fallbackPhase l := by
  unfold select
  rw [targetPhase_eq_none hall]

/-! ### Claim C1 -/

/-- C1: on a deduplicated candidate list that decomposes as `l1 ++ c :: l2`
with every candidate of `l1` outside the tolerance of the target and `c`
within it, the Selector returns `c` — the first in-tolerance candidate in
discovery order — for every tail `l2`, so no later candidate (however
close to the target) can affect the result. -/
theorem C1_target_phase_first (l1 : List CoordinatePair) (c : CoordinatePair)
    (l2 : List CoordinatePair) (h1 : ∀ d ∈ l1, withinTol d = false)
    (hc : withinTol c = true) : select (l1 ++ c :: l2) = some c := by
  unfold select
  rw [targetPhase_first l2 h1 hc]

/-- Witness for C1 at a concrete input: the second candidate matches the
target only approximately while the third matches it exactly (it is
strictly closer), yet the second is selected. -/
theorem C1_target_phase_first_witness :
    (∀ d ∈ [({ pos1 := 0, pos2 := 10, lon := 10.5, lat := 20.25 } :
        CoordinatePair)], withinTol d = false) ∧
      withinTol { pos1 := 20, pos2 := 30, lon := -122.05905, lat := 37.93605 } = true ∧
      select ([{ pos1 := 0, pos2 := 10, lon := 10.5, lat := 20.25 }] ++
          { pos1 := 20, pos2 := 30, lon := -122.05905, lat := 37.93605 } ::
            [{ pos1 := 40, pos2 := 50, lon := -122.0591, lat := 37.9361 }]) =
        some { pos1 := 20, pos2 := 30, lon := -122.05905, lat := 37.93605 } := by
  refine ⟨?_, ?_, ?_⟩
  · intro d hd
    rcases List.mem_singleton.mp hd with rfl
    norm_num [withinTol, target_lat, target_lon, tol, abs_le]
  · norm_num [withinTol, target_lat, target_lon, tol, abs_le]
  · exact C1_target_phase_first _ _ _
      (by
        intro d hd
        rcases List.mem_singleton.mp hd with rfl
        norm_num [withinTol, target_lat, target_lon, tol, abs_le])
      (by norm_num [withinTol, target_lat, target_lon, tol, abs_le])

/-! ### Claim C2 -/

/-- C2: on a non-empty deduplicated candidate list with no candidate within
tolerance of the target, the Selector returns an occurrence `c` of the list
whose `min(pos1, pos2)` is a minimum of the whole list and strictly smaller
than that of every earlier candidate — i.e. the earliest-discovered
candidate among those sharing the smallest key, as a stable sort by the key
produces. -/
theorem C2_fallback_earliest_min (unique : List CoordinatePair)
    (hne : unique ≠ []) (hall : ∀ c ∈ unique, withinTol c = false) :
    ∃ l1 c l2, unique = l1 ++ c :: l2 ∧ select unique = some c ∧
      (∀ d ∈ l1, minpos c < minpos d) ∧ ∀ d ∈ unique, minpos c ≤ minpos d := by
  obtain ⟨l1, c, l2, hdec, hhead, hlt, hle⟩ := sortByMinPos_head unique hne
  refine ⟨l1, c, l2, hdec, ?_, hlt, hle⟩
  rw [select_eq_fallback hall]
  unfold fallbackPhase
  rw [if_neg (by simpa using hne)]
  exact hhead

/-- Witness for C2 at a concrete input: of two out-of-tolerance candidates
the one with the smaller `min(pos1, pos2)` is selected even though it was
discovered later. -/
theorem C2_fallback_earliest_min_witness :
    ([{ pos1 := 5, pos2 := 9, lon := 1, lat := 2 },
      { pos1 := 7, pos2 := 3, lon := 1.25, lat := 2.25 }] :
        List CoordinatePair) ≠ [] ∧
    (∀ c ∈ ([{ pos1 := 5, pos2 := 9, lon := 1, lat := 2 },
      { pos1 := 7, pos2 := 3, lon := 1.25, lat := 2.25 }] :
        List CoordinatePair), withinTol c = false) ∧
    ∃ l1 c l2,
      ([{ pos1 := 5, pos2 := 9, lon := 1, lat := 2 },
        { pos1 := 7, pos2 := 3, lon := 1.25, lat := 2.25 }] :
          List CoordinatePair) = l1 ++ c :: l2 ∧
      select [{ pos1 := 5, pos2 := 9, lon := 1, lat := 2 },
        { pos1 := 7, pos2 := 3, lon := 1.25, lat := 2.25 }] = some c ∧
      (∀ d ∈ l1, minpos c < minpos d) ∧
      ∀ d ∈ ([{ pos1 := 5, pos2 := 9, lon := 1, lat := 2 },
        { pos1 := 7, pos2 := 3, lon := 1.25, lat := 2.25 }] :
          List CoordinatePair), minpos c ≤ minpos d := by
  have hall : ∀ c ∈ ([{ pos1 := 5, pos2 := 9, lon := 1, lat := 2 },
      { pos1 := 7, pos2 := 3, lon := 1.25, lat := 2.25 }] :
        List CoordinatePair), withinTol c = false := by
    intro c hc
    rcases List.mem_cons.mp hc with rfl | hc
    · norm_num [withinTol, target_lat, target_lon, tol, abs_le]
    · rcases List.mem_singleton.mp hc with rfl
      norm_num [withinTol, target_lat, target_lon, tol, abs_le]
  exact ⟨by simp, hall, C2_fallback_earliest_min _ (by simp) hall⟩

/-! ### Range-index bookkeeping -/

theorem range_flatMap_succ {β : Type _} (n : Nat) (f : Nat → List β) :
    (List.range (n + 1)).flatMap f =
      f 0 ++ (List.range n).flatMap fun k => f (k + 1) := by
  rw [List.range_succ_eq_map, List.flatMap_cons, List.flatMap_map]

theorem range_filter_flatMap_succ {β : Type _} (n : Nat) (p : Nat → Bool)
    (g : Nat → List β) :
    ((List.range (n + 1)).filter p).flatMap g =
      (if p 0 then g 0 else []) ++
        ((List.range n).filter fun k => p (k + 1)).flatMap fun k => g (k + 1) := by
  rw [List.range_succ_eq_map, List.filter_cons, List.filter_map]
  by_cases h0 : p 0
  · rw [if_pos h0, if_pos h0, List.flatMap_cons, List.flatMap_map]
    simp [Function.comp_def]
  · rw [if_neg h0, if_neg h0, List.flatMap_map]
    simp [Function.comp_def]

theorem flatMap_congr_mem {α β : Type _} {l : List α} {f g : α → List β}
    (h : ∀ a ∈ l, f a = g a) : l.flatMap f = l.flatMap g := by
  unfold List.flatMap
  exact congrArg List.flatten (List.map_congr_left h)

theorem range_filter_map_succ {β : Type _} (n : Nat) (p : Nat → Bool)
    (g : Nat → β) :
    ((List.range (n + 1)).filter p).map g =
      (if p 0 then [g 0] else []) ++
        ((List.range n).filter fun k => p (k + 1)).map fun k => g (k + 1) := by
  rw [List.range_succ_eq_map, List.filter_cons, List.filter_map]
  by_cases h0 : p 0
  · rw [if_pos h0, if_pos h0, List.map_cons, List.map_map]
    simp [Function.comp_def]
  · rw [if_neg h0, if_neg h0, List.map_map]
    simp [Function.comp_def]

/-! ### Claim C5 -/

theorem dedupAux_eq_specAux : ∀ (l : List CoordinatePair) (seen : List (ℚ × ℚ)),
    dedupAux seen l = dedupSpecAux seen l := by
  intro l
  induction l with
  | nil => intro seen; rfl
  | cons p rest ih =>
    intro seen
    have hlen : (p :: rest).length = rest.length + 1 := rfl
    rw [dedupSpecAux, hlen, range_filter_map_succ]
    simp only [pAt, List.getD_cons_zero, List.getD_cons_succ, Nat.not_lt_zero,
      false_implies, implies_true, and_true]
    by_cases hseen : keyOf p ∈ seen
    · have hd : decide (keyOf p ∉ seen) = false := by simp [hseen]
      rw [hd]
      simp only [Bool.false_eq_true, if_false, List.nil_append]
      simp only [dedupAux]
      rw [if_pos hseen, ih seen, dedupSpecAux]
      congr 1
      apply List.filter_congr
      intro k _
      apply decide_eq_decide.mpr
      constructor
      · rintro ⟨hk, hall⟩
        refine ⟨hk, ?_⟩
        intro j hj
        cases j with
        | zero =>
          intro hcontra
          apply hk
          show keyOf (rest.getD k default) ∈ seen
          rw [← hcontra]
          exact hseen
        | succ j' =>
          exact hall j' (by omega)
      · rintro ⟨hk, hall⟩
        exact ⟨hk, fun j hj => hall (j + 1) (by omega)⟩
    · have hd : decide (keyOf p ∉ seen) = true := decide_eq_true hseen
      rw [hd]
      rw [if_pos rfl]
      simp only [List.singleton_append]
      simp only [dedupAux]
      rw [if_neg hseen, ih (keyOf p :: seen), dedupSpecAux]
      congr 1
      congr 1
      apply List.filter_congr
      intro k _
      apply decide_eq_decide.mpr
      constructor
      · rintro ⟨hk, hall⟩
        refine ⟨fun h => hk (List.mem_cons_of_mem _ h), ?_⟩
        intro j hj
        cases j with
        | zero =>
          intro hcontra
          apply hk
          show keyOf (rest.getD k default) ∈ keyOf p :: seen
          rw [← hcontra]
          exact List.mem_cons_self _ _
        | succ j' =>
          exact hall j' (by omega)
      · rintro ⟨hk, hall⟩
        refine ⟨?_, fun j hj => hall (j + 1) (by omega)⟩
        intro hmem
        rcases List.mem_cons.mp hmem with h | h
        · exact hall 0 (by omega) h.symm
        · exact hk h

/-- C5: the Deduplicator keeps exactly the pairs whose canonical key
`(round(lat, 7), round(lon, 7))` has not occurred at any earlier position,
unchanged and in the original discovery order: among pairs with equal
rounded keys only the first-discovered survives. -/
theorem C5_dedup_first_occurrence (pairs : List CoordinatePair) :
    dedup pairs = dedupSpec pairs := by
  rw [dedup, dedupAux_eq_specAux, dedupSpecAux, dedupSpec]
  congr 1
  apply List.filter_congr
  intro k _
  apply decide_eq_decide.mpr
  simp

/-! ### Pair Finder lemmas -/

theorem takeWhile_eq_filter_of_pairwise {α : Type _} {P : α → Bool} :
    ∀ {l : List α}, List.Pairwise (fun a b => P b = true → P a = true) l →
      l.takeWhile P = l.filter P := by
  intro l
  induction l with
  | nil => intro _; rfl
  | cons a t ih =>
    intro h
    rcases List.pairwise_cons.mp h with ⟨h1, h2⟩
    by_cases ha : P a = true
    · rw [List.takeWhile_cons_of_pos ha, List.filter_cons_of_pos ha, ih h2]
    · rw [List.takeWhile_cons_of_neg ha, List.filter_cons_of_neg ha]
      symm
      rw [List.filter_eq_nil_iff]
      intro b hb hPb
      exact ha (h1 b hb hPb)

theorem pairsInner_eq_takeWhile (p1 : Int) (v1 : ℚ) (W : Int) :
    ∀ rest : List (Int × ℚ),
      pairsInner p1 v1 W rest =
        (rest.takeWhile fun x => decide (x.1 - p1 ≤ W)).flatMap
          fun x => directEmit p1 x.1 v1 x.2 ++ swapEmit p1 x.1 v1 x.2 := by
  intro rest
  induction rest with
  | nil => rfl
  | cons x t ih =>
    rcases x with ⟨p2, v2⟩
    simp only [pairsInner]
    by_cases hw : W < p2 - p1
    · rw [if_pos hw, List.takeWhile_cons_of_neg (by simp; omega)]
      rfl
    · rw [if_neg hw, List.takeWhile_cons_of_pos (by simp; omega),
        List.flatMap_cons, ih]

theorem idx_filter_flatMap {α β : Type _} (d : α) (Q : α → Bool)
    (g : α → List β) :
    ∀ l : List α,
      ((List.range l.length).filter fun k => Q (l.getD k d)).flatMap
        (fun k => g (l.getD k d)) = (l.filter Q).flatMap g := by
  intro l
  induction l with
  | nil => rfl
  | cons a t ih =>
    have hlen : (a :: t).length = t.length + 1 := rfl
    rw [hlen, range_filter_flatMap_succ]
    simp only [List.getD_cons_zero, List.getD_cons_succ]
    rw [ih, List.filter_cons]
    by_cases hQ : Q a = true
    · rw [if_pos hQ, if_pos hQ, List.flatMap_cons]
    · rw [if_neg hQ, if_neg hQ, List.nil_append]

theorem pairsInner_mem {p1 : Int} {v1 : ℚ} {W : Int} :
    ∀ {rest : List (Int × ℚ)} {q : CoordinatePair},
      q ∈ pairsInner p1 v1 W rest →
      q.pos1 = p1 ∧ q.pos2 - p1 ≤ W ∧ (∃ x ∈ rest, q.pos2 = x.1) ∧
        -180 ≤ q.lon ∧ q.lon ≤ 180 ∧ -90 ≤ q.lat ∧ q.lat ≤ 90 := by
  intro rest
  induction rest with
  | nil => intro q h; exact absurd h (List.not_mem_nil q)
  | cons x t ih =>
    intro q h
    rcases x with ⟨p2, v2⟩
    simp only [pairsInner] at h
    by_cases hw : W < p2 - p1
    · rw [if_pos hw] at h; exact absurd h (List.not_mem_nil q)
    · rw [if_neg hw] at h
      rcases List.mem_append.mp h with h | h
      · rcases List.mem_append.mp h with h | h
        · simp only [directEmit] at h
          split at h
          · rename_i hc
            obtain ⟨a1, a2, a3, a4⟩ := hc
            rcases List.mem_singleton.mp h with rfl
            exact ⟨rfl, by show p2 - p1 ≤ W; omega, ⟨(p2, v2), by simp, rfl⟩,
              a1, a2, a3, a4⟩
          · exact absurd h (List.not_mem_nil q)
        · simp only [swapEmit] at h
          split at h
          · rename_i hc
            obtain ⟨a1, a2, a3, a4⟩ := hc
            rcases List.mem_singleton.mp h with rfl
            exact ⟨rfl, by show p2 - p1 ≤ W; omega, ⟨(p2, v2), by simp, rfl⟩,
              a1, a2, a3, a4⟩
          · exact absurd h (List.not_mem_nil q)
      · obtain ⟨e1, e2, ⟨y, hy, e3⟩, e4⟩ := ih h
        exact ⟨e1, e2, ⟨y, List.mem_cons_of_mem _ hy, e3⟩, e4⟩

theorem find_pairs_sorted_mem {W : Int} :
    ∀ {floats : List (Int × ℚ)},
      List.Pairwise (fun a b : Int × ℚ => a.1 < b.1) floats →
      ∀ {q : CoordinatePair}, q ∈ find_coordinate_pairs floats W →
        q.pos1 < q.pos2 ∧ q.pos2 - q.pos1 ≤ W := by
  intro floats
  induction floats with
  | nil => intro _ q h; exact absurd h (List.not_mem_nil q)
  | cons x t ih =>
    intro hs q h
    rcases List.pairwise_cons.mp hs with ⟨h1, h2⟩
    rcases x with ⟨p1, v1⟩
    simp only [find_coordinate_pairs] at h
    rcases List.mem_append.mp h with h | h
    · obtain ⟨e1, e2, ⟨y, hy, e3⟩, -⟩ := pairsInner_mem h
      have hlt := h1 y hy
      constructor
      · rw [e1, e3]; exact hlt
      · rw [e1]; exact e2
    · exact ih h2 h

theorem find_pairs_ranges {W : Int} :
    ∀ {floats : List (Int × ℚ)} {q : CoordinatePair},
      q ∈ find_coordinate_pairs floats W →
      -180 ≤ q.lon ∧ q.lon ≤ 180 ∧ -90 ≤ q.lat ∧ q.lat ≤ 90 := by
  intro floats
  induction floats with
  | nil => intro q h; exact absurd h (List.not_mem_nil q)
  | cons x t ih =>
    intro q h
    rcases x with ⟨p1, v1⟩
    simp only [find_coordinate_pairs] at h
    rcases List.mem_append.mp h with h | h
    · exact (pairsInner_mem h).2.2.2
    · exact ih h

theorem find_pairs_pos1_mem {W : Int} :
    ∀ {floats : List (Int × ℚ)} {q : CoordinatePair},
      q ∈ find_coordinate_pairs floats W → ∃ x ∈ floats, q.pos1 = x.1 := by
  intro floats
  induction floats with
  | nil => intro q h; exact absurd h (List.not_mem_nil q)
  | cons x t ih =>
    intro q h
    rcases x with ⟨p1, v1⟩
    simp only [find_coordinate_pairs] at h
    rcases List.mem_append.mp h with h | h
    · exact ⟨(p1, v1), by simp, (pairsInner_mem h).1⟩
    · obtain ⟨y, hy, e⟩ := ih h
      exact ⟨y, List.mem_cons_of_mem _ hy, e⟩

theorem find_pairs_pos1_mono {W : Int} :
    ∀ {floats : List (Int × ℚ)},
      List.Pairwise (fun a b : Int × ℚ => a.1 < b.1) floats →
      List.Pairwise (fun a b : CoordinatePair => a.pos1 ≤ b.pos1)
        (find_coordinate_pairs floats W) := by
  intro floats
  induction floats with
  | nil => intro _; exact List.Pairwise.nil
  | cons x t ih =>
    intro hs
    rcases List.pairwise_cons.mp hs with ⟨h1, h2⟩
    rcases x with ⟨p1, v1⟩
    simp only [find_coordinate_pairs]
    rw [List.pairwise_append]
    refine ⟨?_, ih h2, ?_⟩
    · apply List.pairwise_of_forall_mem_list
      intro a ha b hb
      rw [(pairsInner_mem ha).1, (pairsInner_mem hb).1]
    · intro a ha b hb
      rw [(pairsInner_mem ha).1]
      obtain ⟨y, hy, e⟩ := find_pairs_pos1_mem hb
      rw [e]
      exact le_of_lt (h1 y hy)

theorem dedupAux_sublist :
    ∀ (l : List CoordinatePair) (seen : List (ℚ × ℚ)),
      List.Sublist (dedupAux seen l) l := by
  intro l
  induction l with
  | nil => intro seen; exact List.Sublist.refl []
  | cons p rest ih =>
    intro seen
    simp only [dedupAux]
    by_cases hseen : keyOf p ∈ seen
    · rw [if_pos hseen]
      exact List.Sublist.cons p (ih seen)
    · rw [if_neg hseen]
      exact List.Sublist.cons₂ p (ih (keyOf p :: seen))

/-! ### Claim C3 -/

theorem find_eq_pairsSpec {W : Int} :
    ∀ {floats : List (Int × ℚ)},
      List.Pairwise (fun a b : Int × ℚ => a.1 < b.1) floats →
      find_coordinate_pairs floats W = pairsSpec floats W := by
  intro floats
  induction floats with
  | nil => intro _; rfl
  | cons x rest ih =>
    intro hs
    rcases List.pairwise_cons.mp hs with ⟨h1, h2⟩
    rcases x with ⟨p1, v1⟩
    have hlen : ((p1, v1) :: rest).length = rest.length + 1 := rfl
    rw [pairsSpec, hlen, range_flatMap_succ]
    simp only [find_coordinate_pairs]
    have hfirst :
        ((List.range (rest.length + 1)).filter fun j =>
          decide (0 < j ∧
            (fAt ((p1, v1) :: rest) j).1 - (fAt ((p1, v1) :: rest) 0).1 ≤ W)).flatMap
            (emitIJ ((p1, v1) :: rest) 0) =
        pairsInner p1 v1 W rest := by
      rw [range_filter_flatMap_succ]
      have h0 : decide (0 < 0 ∧
          (fAt ((p1, v1) :: rest) 0).1 - (fAt ((p1, v1) :: rest) 0).1 ≤ W) = false := by
        simp
      rw [h0]
      simp only [Bool.false_eq_true, if_false, List.nil_append]
      have hps : (fun k => decide (0 < k + 1 ∧
            (fAt ((p1, v1) :: rest) (k + 1)).1 - (fAt ((p1, v1) :: rest) 0).1 ≤ W)) =
          fun k => decide ((rest.getD k (0, 0)).1 - p1 ≤ W) := by
        funext k
        apply decide_eq_decide.mpr
        simp [fAt]
      rw [hps]
      have hem : (fun k => emitIJ ((p1, v1) :: rest) 0 (k + 1)) =
          fun k => directEmit p1 (rest.getD k (0, 0)).1 v1 (rest.getD k (0, 0)).2 ++
            swapEmit p1 (rest.getD k (0, 0)).1 v1 (rest.getD k (0, 0)).2 := by
        funext k
        simp [emitIJ, fAt]
      rw [hem]
      rw [idx_filter_flatMap ((0 : Int), (0 : ℚ))
        (fun a => decide (a.1 - p1 ≤ W))
        (fun a => directEmit p1 a.1 v1 a.2 ++ swapEmit p1 a.1 v1 a.2) rest]
      rw [← takeWhile_eq_filter_of_pairwise
        (h2.imp fun hab hb => by
          simp only [decide_eq_true_eq] at hb ⊢
          omega)]
      rw [pairsInner_eq_takeWhile]
    have hsecond :
        ((List.range rest.length).flatMap fun k =>
          ((List.range (rest.length + 1)).filter fun j =>
            decide (k + 1 < j ∧
              (fAt ((p1, v1) :: rest) j).1 - (fAt ((p1, v1) :: rest) (k + 1)).1 ≤ W)).flatMap
              (emitIJ ((p1, v1) :: rest) (k + 1))) =
        pairsSpec rest W := by
      rw [pairsSpec]
      apply flatMap_congr_mem
      intro k _
      rw [range_filter_flatMap_succ]
      have h0 : decide (k + 1 < 0 ∧
          (fAt ((p1, v1) :: rest) 0).1 - (fAt ((p1, v1) :: rest) (k + 1)).1 ≤ W) = false := by
        simp
      rw [h0]
      simp only [Bool.false_eq_true, if_false, List.nil_append]
      have hps : (fun j => decide (k + 1 < j + 1 ∧
            (fAt ((p1, v1) :: rest) (j + 1)).1 -
              (fAt ((p1, v1) :: rest) (k + 1)).1 ≤ W)) =
          fun j => decide (k < j ∧ (fAt rest j).1 - (fAt rest k).1 ≤ W) := by
        funext j
        apply decide_eq_decide.mpr
        simp only [fAt, List.getD_cons_succ]
        constructor
        · rintro ⟨hlt, hA⟩
          exact ⟨by omega, hA⟩
        · rintro ⟨hlt, hA⟩
          exact ⟨by omega, hA⟩
      rw [hps]
      have hem : (fun j => emitIJ ((p1, v1) :: rest) (k + 1) (j + 1)) =
          emitIJ rest k := by
        funext j
        simp [emitIJ, fAt]
      rw [hem]
    rw [hfirst, hsecond, ih h2]

/-- C3: for an offset-ordered float list the Pair Finder output is exactly
the index-level description `pairsSpec` — for every in-window index pair
`i < j` with values `v1, v2`, the direct emission `(lon := v1, lat := v2)`
appears iff `-180 ≤ v1 ≤ 180` and `-90 ≤ v2 ≤ 90`, the swapped emission
appears independently iff `-180 ≤ v2 ≤ 180` and `-90 ≤ v1 ≤ 90`, both in
the order direct-then-swapped — and consequently every emitted pair has
its longitude in `[-180, 180]` and its latitude in `[-90, 90]`. -/
theorem C3_pair_finder_emissions (floats : List (Int × ℚ)) (W : Int)
    (hs : List.Pairwise (fun a b : Int × ℚ => a.1 < b.1) floats) :
    find_coordinate_pairs floats W = pairsSpec floats W ∧
      ∀ q ∈ find_coordinate_pairs floats W,
        -180 ≤ q.lon ∧ q.lon ≤ 180 ∧ -90 ≤ q.lat ∧ q.lat ≤ 90 :=
  ⟨find_eq_pairsSpec hs, fun _ hq => find_pairs_ranges hq⟩

/-- Witness for C3 at a concrete offset-ordered float list. -/
theorem C3_pair_finder_emissions_witness :
    List.Pairwise (fun a b : Int × ℚ => a.1 < b.1)
      [((0 : Int), (10.5 : ℚ)), ((50 : Int), (20.25 : ℚ))] ∧
    (find_coordinate_pairs [((0 : Int), (10.5 : ℚ)), ((50 : Int), (20.25 : ℚ))] 300 =
        pairsSpec [((0 : Int), (10.5 : ℚ)), ((50 : Int), (20.25 : ℚ))] 300 ∧
      ∀ q ∈ find_coordinate_pairs
          [((0 : Int), (10.5 : ℚ)), ((50 : Int), (20.25 : ℚ))] 300,
        -180 ≤ q.lon ∧ q.lon ≤ 180 ∧ -90 ≤ q.lat ∧ q.lat ≤ 90) := by
  have hpw : List.Pairwise (fun a b : Int × ℚ => a.1 < b.1)
      [((0 : Int), (10.5 : ℚ)), ((50 : Int), (20.25 : ℚ))] := by
    simp [List.pairwise_cons]
  exact ⟨hpw, C3_pair_finder_emissions _ 300 hpw⟩

/-! ### Claim C4 -/

/-- C4: no emitted CoordinatePair spans more than the window (on the
offset-ordered lists the Pair Finder consumes), the end-to-end flow uses
the window `W = 300`, and two values more than 300 bytes apart produce no
candidate, whereupon the Selector yields `none`. -/
theorem C4_window_bound :
    (∀ (floats : List (Int × ℚ)) (W : Int),
      List.Pairwise (fun a b : Int × ℚ => a.1 < b.1) floats →
      ∀ q ∈ find_coordinate_pairs floats W, |q.pos2 - q.pos1| ≤ W) ∧
    (∀ data : List Nat,
      mainPairs data = find_coordinate_pairs (mainFloats data) 300) ∧
    ∀ (p1 p2 : Int) (v1 v2 : ℚ), 300 < p2 - p1 →
      find_coordinate_pairs [(p1, v1), (p2, v2)] 300 = [] ∧
        select (dedup (find_coordinate_pairs [(p1, v1), (p2, v2)] 300)) = none := by
  refine ⟨?_, fun data => rfl, ?_⟩
  · intro floats W hs q hq
    obtain ⟨hlt, hle⟩ := find_pairs_sorted_mem hs hq
    rw [abs_of_nonneg (by omega)]
    exact hle
  · intro p1 p2 v1 v2 hfar
    have hempty : find_coordinate_pairs [(p1, v1), (p2, v2)] 300 = [] := by
      simp only [find_coordinate_pairs, pairsInner]
      rw [if_pos hfar]
      rfl
    exact ⟨hempty, by rw [hempty]; rfl⟩

/-- Witness for C4 at concrete inputs: an in-window pair respects the
bound, and a two-float list 400 bytes apart yields no candidate and the
`none` selection. -/
theorem C4_window_bound_witness :
    List.Pairwise (fun a b : Int × ℚ => a.1 < b.1)
      [((0 : Int), (10.5 : ℚ)), ((100 : Int), (20.25 : ℚ))] ∧
    |(100 : Int) - 0| ≤ 300 ∧
    (300 : Int) < 400 - 0 ∧
    find_coordinate_pairs [((0 : Int), (1 : ℚ)), ((400 : Int), (2 : ℚ))] 300 = [] ∧
    select (dedup (find_coordinate_pairs
      [((0 : Int), (1 : ℚ)), ((400 : Int), (2 : ℚ))] 300)) = none := by
  have hpw : List.Pairwise (fun a b : Int × ℚ => a.1 < b.1)
      [((0 : Int), (10.5 : ℚ)), ((100 : Int), (20.25 : ℚ))] := by
    simp [List.pairwise_cons]
  have hfind : find_coordinate_pairs
      [((0 : Int), (10.5 : ℚ)), ((100 : Int), (20.25 : ℚ))] 300 =
      [⟨0, 100, 10.5, 20.25⟩, ⟨0, 100, 20.25, 10.5⟩] := by
    norm_num [find_coordinate_pairs, pairsInner, directEmit, swapEmit]
  have hb := C4_window_bound.1 _ 300 hpw ⟨0, 100, 10.5, 20.25⟩
    (by rw [hfind]; exact List.mem_cons_self _ _)
  have hc := C4_window_bound.2.2 0 400 1 2 (by norm_num)
  exact ⟨hpw, hb, by norm_num, hc.1, hc.2⟩

/-! ### Claim C10 -/

/-- C10: on offset-ordered input every emitted pair has `pos1 < pos2`
strictly (the swapped emission keeps the offsets in place), so
`min(pos1, pos2) = pos1`; the candidates are discovered in nondecreasing
`pos1` order, deduplication preserves that order, so `min(pos1, pos2)` is
nondecreasing across the unique list and the fallback sort is redundant:
the fallback selection is the first element of the unique list. -/
theorem C10_fallback_redundant (floats : List (Int × ℚ)) (W : Int)
    (hs : List.Pairwise (fun a b : Int × ℚ => a.1 < b.1) floats) :
    (∀ q ∈ find_coordinate_pairs floats W, q.pos1 < q.pos2) ∧
    (∀ q ∈ find_coordinate_pairs floats W, minpos q = q.pos1) ∧
    List.Pairwise (fun a b : CoordinatePair => a.pos1 ≤ b.pos1)
      (find_coordinate_pairs floats W) ∧
    List.Pairwise (fun a b : CoordinatePair => minpos a ≤ minpos b)
      (dedup (find_coordinate_pairs floats W)) ∧
    fallbackPhase (dedup (find_coordinate_pairs floats W)) =
      (dedup (find_coordinate_pairs floats W)).head? := by
  have hlt : ∀ q ∈ find_coordinate_pairs floats W, q.pos1 < q.pos2 :=
    fun q hq => (find_pairs_sorted_mem hs hq).1
  have hmin : ∀ q ∈ find_coordinate_pairs floats W, minpos q = q.pos1 :=
    fun q hq => min_eq_left (le_of_lt (hlt q hq))
  have hmono := find_pairs_pos1_mono (W := W) hs
  have hsub := dedupAux_sublist (find_coordinate_pairs floats W) []
  have h1 : List.Pairwise (fun a b : CoordinatePair => a.pos1 ≤ b.pos1)
      (dedup (find_coordinate_pairs floats W)) := hmono.sublist hsub
  have hdmono : List.Pairwise (fun a b : CoordinatePair => minpos a ≤ minpos b)
      (dedup (find_coordinate_pairs floats W)) := by
    refine List.Pairwise.imp_of_mem ?_ h1
    intro a b ha hb hab
    rw [hmin a (hsub.subset ha), hmin b (hsub.subset hb)]
    exact hab
  refine ⟨hlt, hmin, hmono, hdmono, ?_⟩
  rcases hd : dedup (find_coordinate_pairs floats W) with - | ⟨c, t⟩
  · rfl
  · rw [hd] at hdmono
    unfold fallbackPhase
    rw [if_neg (by simp)]
    unfold sortByMinPos
    rw [List.Sorted.insertionSort_eq hdmono]

/-- Witness for C10 at a concrete offset-ordered float list. -/
theorem C10_fallback_redundant_witness :
    List.Pairwise (fun a b : Int × ℚ => a.1 < b.1)
      [((0 : Int), (10.5 : ℚ)), ((100 : Int), (20.25 : ℚ))] ∧
    ((∀ q ∈ find_coordinate_pairs
        [((0 : Int), (10.5 : ℚ)), ((100 : Int), (20.25 : ℚ))] 300,
        q.pos1 < q.pos2) ∧
      (∀ q ∈ find_coordinate_pairs
        [((0 : Int), (10.5 : ℚ)), ((100 : Int), (20.25 : ℚ))] 300,
        minpos q = q.pos1) ∧
      List.Pairwise (fun a b : CoordinatePair => a.pos1 ≤ b.pos1)
        (find_coordinate_pairs
          [((0 : Int), (10.5 : ℚ)), ((100 : Int), (20.25 : ℚ))] 300) ∧
      List.Pairwise (fun a b : CoordinatePair => minpos a ≤ minpos b)
        (dedup (find_coordinate_pairs
          [((0 : Int), (10.5 : ℚ)), ((100 : Int), (20.25 : ℚ))] 300)) ∧
      fallbackPhase (dedup (find_coordinate_pairs
          [((0 : Int), (10.5 : ℚ)), ((100 : Int), (20.25 : ℚ))] 300)) =
        (dedup (find_coordinate_pairs
          [((0 : Int), (10.5 : ℚ)), ((100 : Int), (20.25 : ℚ))] 300)).head?) := by
  have hpw : List.Pairwise (fun a b : Int × ℚ => a.1 < b.1)
      [((0 : Int), (10.5 : ℚ)), ((100 : Int), (20.25 : ℚ))] := by
    simp [List.pairwise_cons]
  exact ⟨hpw, C10_fallback_redundant _ 300 hpw⟩

/-! ### Float Scanner lemmas -/

theorem alt1Len_ge {l : List Nat} {m : Nat} (h : alt1Len l = some m) : 3 ≤ m := by
  simp only [alt1Len] at h
  split at h
  · rename_i hc
    obtain ⟨hc1, -, -, hc4⟩ := hc
    injection h with h
    omega
  · exact absurd h (by simp)

theorem alt2Len_ge {l : List Nat} {m : Nat} (h : alt2Len l = some m) : 3 ≤ m := by
  simp only [alt2Len] at h
  split at h
  · rename_i hc
    obtain ⟨hc1, -, hc3⟩ := hc
    injection h with h
    omega
  · exact absurd h (by simp)

theorem mantissaLen_ge {l : List Nat} {m : Nat} (h : mantissaLen l = some m) :
    3 ≤ m := by
  unfold mantissaLen at h
  split at h
  · rename_i m3 h12
    injection h with h
    exact h ▸ alt1Len_ge h12
  · exact alt2Len_ge h

theorem matchList_pos {l : List Nat} {len : Nat} (h : matchList l = some len) :
    0 < len := by
  rcases l with - | ⟨b, rest⟩
  · exact absurd h (by simp [matchList])
  · simp only [matchList] at h
    split at h
    · rcases h2 : mantissaLen rest with - | m
      · rw [h2] at h; exact absurd h (by simp)
      · rw [h2] at h
        have h3 : some (1 + m + expLen (rest.drop m)) = some len := h
        injection h3 with h3
        omega
    · rcases h2 : mantissaLen (b :: rest) with - | m
      · rw [h2] at h; exact absurd h (by simp)
      · rw [h2] at h
        have h3 : some (m + expLen ((b :: rest).drop m)) = some len := h
        injection h3 with h3
        have := mantissaLen_ge h2
        omega

theorem digitRunLen_le : ∀ l : List Nat, digitRunLen l ≤ l.length := by
  intro l
  induction l with
  | nil => exact Nat.le_refl 0
  | cons b t ih =>
    simp only [digitRunLen, List.length_cons]
    by_cases hb : isDigitByte b = true
    · rw [if_pos hb]; omega
    · rw [if_neg hb]; omega

theorem allDigits_take_run : ∀ l : List Nat, allDigits (l.take (digitRunLen l)) := by
  intro l
  induction l with
  | nil => intro b hb; simp at hb
  | cons c t ih =>
    simp only [digitRunLen]
    by_cases hc : isDigitByte c = true
    · rw [if_pos hc]
      intro b hb
      rw [List.take_succ_cons] at hb
      rcases List.mem_cons.mp hb with rfl | hb
      · exact hc
      · exact ih b hb
    · rw [if_neg hc]
      intro b hb
      simp at hb

theorem getD_forces_lt {l : List Nat} {r : Nat} (h : l.getD r 0 = 46) :
    r < l.length := by
  by_contra hge
  rw [List.getD_eq_getElem?_getD, List.getElem?_eq_none (by omega)] at h
  exact absurd h (by simp)

theorem take_point_decomp {l : List Nat} {r f : Nat} (hr : l.getD r 0 = 46)
    (_hf : f ≤ (l.drop (r + 1)).length) :
    l.take (r + 1 + f) = l.take r ++ 46 :: (l.drop (r + 1)).take f := by
  have hrlen : r < l.length := getD_forces_lt hr
  have h46 : l[r]? = some 46 := by
    rw [List.getElem?_eq_getElem hrlen]
    have := List.getD_eq_getElem?_getD l r 0
    rw [List.getElem?_eq_getElem hrlen] at this
    rw [hr] at this
    simp only [Option.getD_some] at this
    rw [this]
  calc l.take (r + 1 + f)
      = l.take (r + 1) ++ (l.drop (r + 1)).take f := List.take_add l (r + 1) f
    _ = (l.take r ++ [46]) ++ (l.drop (r + 1)).take f := by
        rw [List.take_succ, h46]; rfl
    _ = l.take r ++ 46 :: (l.drop (r + 1)).take f := by
        rw [List.append_assoc]; rfl

theorem take_ne_nil_of_pos {l : List Nat} {n : Nat} (hn : 0 < n)
    (hl : n ≤ l.length) : l.take n ≠ [] := by
  have : (l.take n).length = n := by
    rw [List.length_take]
    omega
  intro hcontra
  rw [hcontra] at this
  simp at this
  omega

theorem mantissaGrammar_take {l : List Nat} {m : Nat}
    (h : mantissaLen l = some m) :
    mantissaGrammar (l.take m) ∧ m ≤ l.length := by
  have main : ∀ (r f : Nat), r = digitRunLen l → f = digitRunLen (l.drop (r + 1)) →
      1 ≤ r → l.getD r 0 = 46 → 1 ≤ f → m = r + 1 + f →
      (∃ d1 d2, l.take m = d1 ++ 46 :: d2 ∧ d1 ≠ [] ∧ d1.length = r ∧
        allDigits d1 ∧ d2 ≠ [] ∧ allDigits d2) ∧ m ≤ l.length := by
    intro r f hrdef hfdef hr1 hr46 hf1 hm
    have hrlen : r < l.length := getD_forces_lt hr46
    have hflen : f ≤ (l.drop (r + 1)).length := hfdef ▸ digitRunLen_le _
    have hdecomp := take_point_decomp hr46 hflen
    have hd1 : allDigits (l.take r) := hrdef ▸ allDigits_take_run l
    have hd2 : allDigits ((l.drop (r + 1)).take f) := by
      rw [hfdef]; exact allDigits_take_run _
    refine ⟨⟨l.take r, (l.drop (r + 1)).take f, hm ▸ hdecomp,
      take_ne_nil_of_pos hr1 (by omega), ?_, hd1,
      take_ne_nil_of_pos hf1 hflen, hd2⟩, ?_⟩
    · rw [List.length_take]; omega
    · have := List.length_drop (r + 1) l
      omega
  unfold mantissaLen at h
  split at h
  · rename_i m3 h12
    injection h with h
    subst h
    simp only [alt1Len] at h12
    split at h12
    · rename_i hc
      obtain ⟨hc1, hc2, hc3, hc4⟩ := hc
      injection h12 with h12
      obtain ⟨⟨d1, d2, he, hne1, hlen1, hdig1, hne2, hdig2⟩, hle⟩ :=
        main _ _ rfl rfl hc1 hc3 hc4 h12.symm
      exact ⟨Or.inl ⟨d1, d2, he, hne1, by omega, hdig1, hne2, hdig2⟩, hle⟩
    · exact absurd h12 (by simp)
  · simp only [alt2Len] at h
    split at h
    · rename_i hc
      obtain ⟨hc1, hc2, hc3⟩ := hc
      injection h with h
      obtain ⟨⟨d1, d2, he, hne1, hlen1, hdig1, hne2, hdig2⟩, hle⟩ :=
        main _ _ rfl rfl hc1 hc2 hc3 h.symm
      exact ⟨Or.inr ⟨d1, d2, he, hne1, hdig1, hne2, hdig2⟩, hle⟩
    · exact absurd h (by simp)

theorem expGrammar_take : ∀ l : List Nat,
    expGrammar (l.take (expLen l)) ∧ expLen l ≤ l.length := by
  intro l
  match l with
  | [] => exact ⟨Or.inl rfl, by simp [expLen]⟩
  | [b] => exact ⟨Or.inl rfl, by simp [expLen]⟩
  | b :: c :: rest =>
    simp only [expLen]
    by_cases hb : b = 101 ∨ b = 69
    · rw [if_pos hb]
      by_cases hsgn : isSignByte c = true
      · rw [if_pos hsgn]
        by_cases hge : 1 ≤ digitRunLen rest
        · rw [if_pos hge]
          have hrun := digitRunLen_le rest
          constructor
          · right
            refine ⟨b, [c], rest.take (digitRunLen rest), ?_, hb,
              Or.inr ⟨c, rfl, hsgn⟩, take_ne_nil_of_pos hge hrun,
              allDigits_take_run rest⟩
            have h2 : 2 + digitRunLen rest = digitRunLen rest + 1 + 1 := by omega
            rw [h2, List.take_succ_cons, List.take_succ_cons]
            rfl
          · simp only [List.length_cons]
            omega
        · rw [if_neg hge]
          exact ⟨Or.inl rfl, by simp⟩
      · rw [if_neg hsgn]
        by_cases hdg : isDigitByte c = true
        · rw [if_pos hdg]
          have hrun := digitRunLen_le (c :: rest)
          have hpos : 1 ≤ digitRunLen (c :: rest) := by
            simp only [digitRunLen]
            rw [if_pos hdg]
            omega
          constructor
          · right
            refine ⟨b, [], (c :: rest).take (digitRunLen (c :: rest)), ?_, hb,
              Or.inl rfl, take_ne_nil_of_pos hpos hrun,
              allDigits_take_run (c :: rest)⟩
            have h2 : 1 + digitRunLen (c :: rest) = digitRunLen (c :: rest) + 1 := by
              omega
            rw [h2, List.take_succ_cons]
            rfl
          · simp only [List.length_cons] at hrun ⊢
            omega
        · rw [if_neg hdg]
          exact ⟨Or.inl rfl, by simp⟩
    · rw [if_neg hb]
      exact ⟨Or.inl rfl, by simp⟩

theorem tokenGrammar_take {l : List Nat} {len : Nat}
    (h : matchList l = some len) :
    tokenGrammar (l.take len) ∧ len ≤ l.length := by
  rcases l with - | ⟨b, rest⟩
  · exact absurd h (by simp [matchList])
  · simp only [matchList] at h
    split at h
    · rename_i hsgn
      rcases h2 : mantissaLen rest with - | m0
      · rw [h2] at h; exact absurd h (by simp)
      · rw [h2] at h
        have h3 : some (1 + m0 + expLen (rest.drop m0)) = some len := h
        injection h3 with h3
        obtain ⟨hg, hm_le⟩ := mantissaGrammar_take h2
        obtain ⟨he, he_le⟩ := expGrammar_take (rest.drop m0)
        have hdlen := List.length_drop m0 rest
        constructor
        · refine ⟨[b], rest.take m0,
            (rest.drop m0).take (expLen (rest.drop m0)), ?_,
            Or.inr ⟨b, rfl, hsgn⟩, hg, he⟩
          rw [← h3]
          have h4 : 1 + m0 + expLen (rest.drop m0) =
              (m0 + expLen (rest.drop m0)) + 1 := by omega
          rw [h4, List.take_succ_cons, List.take_add]
          rfl
        · simp only [List.length_cons]
          omega
    · rename_i hsgn
      rcases h2 : mantissaLen (b :: rest) with - | m0
      · rw [h2] at h; exact absurd h (by simp)
      · rw [h2] at h
        have h3 : some (m0 + expLen ((b :: rest).drop m0)) = some len := h
        injection h3 with h3
        obtain ⟨hg, hm_le⟩ := mantissaGrammar_take h2
        obtain ⟨he, he_le⟩ := expGrammar_take ((b :: rest).drop m0)
        have hdlen := List.length_drop m0 (b :: rest)
        constructor
        · refine ⟨[], (b :: rest).take m0,
            ((b :: rest).drop m0).take (expLen ((b :: rest).drop m0)), ?_,
            Or.inl rfl, hg, he⟩
          rw [← h3, List.nil_append, List.take_add]
        · omega

theorem scanAux_shape (data : List Nat) :
    ∀ n p, data.length - p ≤ n →
      ∀ m ∈ scanAux data p, p ≤ m.1 ∧ matchList (data.drop m.1) = some m.2 := by
  intro n
  induction n with
  | zero =>
    intro p hp m hm
    unfold scanAux at hm
    rw [dif_neg (by omega)] at hm
    exact absurd hm (List.not_mem_nil m)
  | succ n ih =>
    intro p hp m hm
    unfold scanAux at hm
    by_cases hplen : p < data.length
    · rw [dif_pos hplen] at hm
      split at hm
      · rename_i len heq
        rcases List.mem_cons.mp hm with rfl | hm
        · exact ⟨Nat.le_refl _, heq⟩
        · have hlen_pos : 0 < len := matchList_pos heq
          obtain ⟨h1, h2⟩ := ih (p + len) (by omega) m hm
          exact ⟨by omega, h2⟩
      · rename_i heq
        obtain ⟨h1, h2⟩ := ih (p + 1) (by omega) m hm
        exact ⟨by omega, h2⟩
    · rw [dif_neg hplen] at hm
      exact absurd hm (List.not_mem_nil m)

theorem scanAux_pairwise (data : List Nat) :
    ∀ n p, data.length - p ≤ n →
      List.Pairwise (fun a b : Nat × Nat => a.1 < b.1) (scanAux data p) := by
  intro n
  induction n with
  | zero =>
    intro p hp
    unfold scanAux
    rw [dif_neg (by omega)]
    exact List.Pairwise.nil
  | succ n ih =>
    intro p hp
    unfold scanAux
    by_cases hplen : p < data.length
    · rw [dif_pos hplen]
      split
      · rename_i len heq
        have hlen_pos : 0 < len := matchList_pos heq
        refine List.Pairwise.cons ?_ (ih (p + len) (by omega))
        intro b hb
        have := (scanAux_shape data data.length (p + len) (by omega) b hb).1
        omega
      · exact ih (p + 1) (by omega)
    · rw [dif_neg hplen]
      exact List.Pairwise.nil

theorem floatScan_shape {data : List Nat} :
    ∀ m ∈ floatScan data, matchList (data.drop m.1) = some m.2 :=
  fun m hm => (scanAux_shape data data.length 0 (by omega) m hm).2

theorem floatScan_pairwise (data : List Nat) :
    List.Pairwise (fun a b : Nat × Nat => a.1 < b.1) (floatScan data) :=
  scanAux_pairwise data data.length 0 (by omega)

theorem find_floats_pairwise (data : List Nat) :
    List.Pairwise (fun a b : Nat × ℚ => a.1 < b.1) (find_floats_in_bytes data) := by
  rw [find_floats_in_bytes, List.pairwise_filterMap]
  refine (floatScan_pairwise data).imp_of_mem ?_
  intro m m' hm hm' hlt x hx y hy
  simp only [Option.mem_def, Option.map_eq_some'] at hx hy
  obtain ⟨v, -, rfl⟩ := hx
  obtain ⟨v', -, rfl⟩ := hy
  exact hlt

/-! ### Claim C6 -/

/-- C6: for every byte buffer the Float Scanner's emitted offsets are
strictly increasing (matches are found left-to-right and do not overlap),
and every matched substring satisfies the number grammar — optional sign,
then either 1–3 digits, `.`, one-or-more digits, or one-or-more digits,
`.`, one-or-more digits, then an optional exponent suffix. -/
theorem C6_scanner_offsets_grammar (data : List Nat) :
    List.Pairwise (fun a b : Nat × ℚ => a.1 < b.1) (find_floats_in_bytes data) ∧
      ∀ m ∈ floatScan data, tokenGrammar (token data m) :=
  ⟨find_floats_pairwise data,
    fun m hm => (tokenGrammar_take (floatScan_shape m hm)).1⟩

/-! ### Parse-success lemmas -/

theorem digit_lt_128 {b : Nat} (h : isDigitByte b = true) : b < 128 := by
  simp only [isDigitByte, Bool.and_eq_true, decide_eq_true_eq] at h
  omega

theorem sign_lt_128 {b : Nat} (h : isSignByte b = true) : b < 128 := by
  simp only [isSignByte, Bool.or_eq_true, beq_iff_eq] at h
  omega

theorem tokenGrammar_ascii {t : List Nat} (h : tokenGrammar t) :
    ∀ b ∈ t, b < 128 := by
  obtain ⟨s, m, e, rfl, hsgn, hm, he⟩ := h
  have hmantissa : ∀ b ∈ m, b < 128 := by
    have hm' : ∃ d1 d2, m = d1 ++ 46 :: d2 ∧ allDigits d1 ∧ allDigits d2 := by
      rcases hm with ⟨d1, d2, h1, -, -, h4, -, h6⟩ | ⟨d1, d2, h1, -, h4, -, h6⟩
      · exact ⟨d1, d2, h1, h4, h6⟩
      · exact ⟨d1, d2, h1, h4, h6⟩
    obtain ⟨d1, d2, rfl, hd1, hd2⟩ := hm'
    intro b hb
    rcases List.mem_append.mp hb with hb | hb
    · exact digit_lt_128 (hd1 b hb)
    · rcases List.mem_cons.mp hb with rfl | hb
      · omega
      · exact digit_lt_128 (hd2 b hb)
  intro b hb
  rcases List.mem_append.mp hb with hb | hb
  · rcases List.mem_append.mp hb with hb | hb
    · rcases hsgn with rfl | ⟨c, rfl, hc⟩
      · simp at hb
      · rcases List.mem_singleton.mp hb with rfl
        exact sign_lt_128 hc
    · exact hmantissa b hb
  · rcases he with rfl | ⟨b0, s', ds, rfl, hb0, hs', hne, hds⟩
    · simp at hb
    · rcases List.mem_cons.mp hb with rfl | hb
      · rcases hb0 with rfl | rfl <;> omega
      · rcases List.mem_append.mp hb with hb | hb
        · rcases hs' with rfl | ⟨c, rfl, hc⟩
          · simp at hb
          · rcases List.mem_singleton.mp hb with rfl
            exact sign_lt_128 hc
        · exact digit_lt_128 (hds b hb)

theorem readNat_digits (ds : List Nat) (r : List Nat) (hd : allDigits ds)
    (hr : ∀ b, r.head? = some b → isDigitByte b = false) :
    ∃ v, readNat (ds ++ r) = (v, ds.length, r) := by
  induction ds with
  | nil =>
    rcases r with - | ⟨b, r2⟩
    · exact ⟨0, rfl⟩
    · refine ⟨0, ?_⟩
      simp only [List.nil_append, readNat]
      rw [if_neg (by simp [hr b rfl])]
      rfl
  | cons d ds' ih =>
    have hd' : allDigits ds' := fun b hb => hd b (List.mem_cons_of_mem _ hb)
    obtain ⟨v, hv⟩ := ih hd'
    refine ⟨(d - 48) * 10 ^ ds'.length + v, ?_⟩
    simp only [List.cons_append, readNat]
    rw [if_pos (hd d (List.mem_cons_self _ _))]
    have hv' : readNat (ds'.append r) = (v, ds'.length, r) := hv
    rw [hv']
    rfl

theorem expDigits_isSome {ds : List Nat} (pos : Bool) (hne : ds ≠ [])
    (hdig : allDigits ds) : (expDigits ds pos).isSome = true := by
  obtain ⟨v, hv⟩ := readNat_digits ds [] hdig (by intro b hb; simp at hb)
  rw [List.append_nil] at hv
  simp only [expDigits]
  rw [hv]
  dsimp only
  have hlen : ds.length ≠ 0 := by
    intro h
    exact hne (List.length_eq_zero.mp h)
  rw [if_neg hlen, if_pos rfl]
  rfl

theorem parseExpTail_isSome {e : List Nat} (he : expGrammar e) :
    (parseExpTail e).isSome = true := by
  rcases he with rfl | ⟨b, s, ds, rfl, hb, hsgn, hne, hdig⟩
  · rfl
  · simp only [parseExpTail]
    rw [if_pos hb]
    rcases hsgn with rfl | ⟨c, rfl, hc⟩
    · simp only [List.nil_append]
      rcases ds with - | ⟨d, ds'⟩
      · exact absurd rfl hne
      · have hd : isDigitByte d = true := hdig d (List.mem_cons_self _ _)
        have hd' : 48 ≤ d ∧ d ≤ 57 := by
          simpa [isDigitByte] using hd
        split
        · rename_i r2 heq
          injection heq with h1 h2
          omega
        · rename_i r2 heq
          injection heq with h1 h2
          omega
        · exact expDigits_isSome true hne hdig
    · have hc' : c = 45 ∨ c = 43 := by
        simp only [isSignByte, Bool.or_eq_true, beq_iff_eq] at hc
        omega
      rcases hc' with rfl | rfl
      · exact expDigits_isSome false hne hdig
      · exact expDigits_isSome true hne hdig

theorem parseUnsigned_isSome {m e : List Nat} (hm : mantissaGrammar m)
    (he : expGrammar e) : (parseUnsigned (m ++ e)).isSome = true := by
  have hm' : ∃ d1 d2, m = d1 ++ 46 :: d2 ∧ d1 ≠ [] ∧ allDigits d1 ∧
      allDigits d2 := by
    rcases hm with ⟨d1, d2, h1, h2, -, h4, -, h6⟩ | ⟨d1, d2, h1, h2, h4, -, h6⟩
    · exact ⟨d1, d2, h1, h2, h4, h6⟩
    · exact ⟨d1, d2, h1, h2, h4, h6⟩
  obtain ⟨d1, d2, rfl, hne1, hdig1, hdig2⟩ := hm'
  have hehead : ∀ b, e.head? = some b → isDigitByte b = false := by
    intro b hb
    rcases he with rfl | ⟨b0, s', ds, rfl, hb0, -⟩
    · simp at hb
    · simp only [List.head?_cons, Option.some.injEq] at hb
      subst hb
      rcases hb0 with rfl | rfl <;> rfl
  have harr : (d1 ++ 46 :: d2) ++ e = d1 ++ (46 :: (d2 ++ e)) := by simp
  rw [harr]
  obtain ⟨v1, hv1⟩ := readNat_digits d1 (46 :: (d2 ++ e)) hdig1
    (by intro b hb; simp only [List.head?_cons, Option.some.injEq] at hb;
        subst hb; rfl)
  simp only [parseUnsigned]
  rw [hv1]
  dsimp only
  obtain ⟨v2, hv2⟩ := readNat_digits d2 e hdig2 hehead
  rw [hv2]
  dsimp only
  have hlen : d1.length + d2.length ≠ 0 := by
    have : d1.length ≠ 0 := fun h => hne1 (List.length_eq_zero.mp h)
    omega
  rw [if_neg hlen]
  obtain ⟨q, hq⟩ := Option.isSome_iff_exists.mp (parseExpTail_isSome he)
  rw [hq]
  rfl

theorem parseFloatTok_isSome {t : List Nat} (h : tokenGrammar t) :
    (parseFloatTok t).isSome = true := by
  have hascii := tokenGrammar_ascii h
  obtain ⟨s, m, e, rfl, hsgn, hm, he⟩ := h
  have hany : (s ++ m ++ e).any (fun b => decide (128 ≤ b)) = false := by
    rw [List.any_eq_false]
    intro b hb
    have := hascii b hb
    simp only [decide_eq_true_eq]
    omega
  have hm' : ∃ d1 d2, m = d1 ++ 46 :: d2 ∧ d1 ≠ [] ∧ allDigits d1 := by
    rcases hm with ⟨d1, d2, h1, h2, -, h4, -, -⟩ | ⟨d1, d2, h1, h2, h4, -, -⟩
    · exact ⟨d1, d2, h1, h2, h4⟩
    · exact ⟨d1, d2, h1, h2, h4⟩
  simp only [parseFloatTok]
  rw [hany]
  simp only [Bool.false_eq_true, if_false]
  rcases hsgn with rfl | ⟨c, rfl, hc⟩
  · obtain ⟨d1, d2, rfl, hne1, hdig1⟩ := hm'
    rcases d1 with - | ⟨dh, dt⟩
    · exact absurd rfl hne1
    · have hdh : isDigitByte dh = true := hdig1 dh (List.mem_cons_self _ _)
      have hdh' : 48 ≤ dh ∧ dh ≤ 57 := by simpa [isDigitByte] using hdh
      have hshape : ([] : List Nat) ++ ((dh :: dt) ++ 46 :: d2) ++ e =
          dh :: ((dt ++ 46 :: d2) ++ e) := by simp
      rw [hshape]
      dsimp only
      rw [if_neg (show ¬dh = 45 by omega), if_neg (show ¬dh = 43 by omega)]
      have hback : dh :: ((dt ++ 46 :: d2) ++ e) = ((dh :: dt) ++ 46 :: d2) ++ e := by
        simp
      rw [hback]
      exact parseUnsigned_isSome hm he
  · have hc' : c = 45 ∨ c = 43 := by
      simp only [isSignByte, Bool.or_eq_true, beq_iff_eq] at hc
      omega
    have hshape : [c] ++ m ++ e = c :: (m ++ e) := by simp
    rw [hshape]
    dsimp only
    rcases hc' with rfl | rfl
    · rw [if_pos rfl]
      obtain ⟨q, hq⟩ := Option.isSome_iff_exists.mp (parseUnsigned_isSome hm he)
      rw [hq]
      rfl
    · rw [if_neg (show ¬(43 = 45) by omega), if_pos rfl]
      exact parseUnsigned_isSome hm he

theorem length_filterMap_of_isSome {α β : Type _} (g : α → Option β) :
    ∀ l : List α, (∀ a ∈ l, (g a).isSome = true) →
      (l.filterMap g).length = l.length := by
  intro l
  induction l with
  | nil => intro _; rfl
  | cons a t ih =>
    intro h
    rw [List.filterMap_cons]
    rcases hg : g a with - | b
    · exact absurd (h a (List.mem_cons_self _ _)) (by simp [hg])
    · simp only [List.length_cons]
      rw [ih fun x hx => h x (List.mem_cons_of_mem _ hx)]

/-! ### Claim C9 -/

/-- C9: the per-match failure branch of the Float Scanner is unreachable:
every matched substring is pure ASCII and parses successfully as a
floating-point literal, so no match is dropped and the scanner emits one
FloatMatch per regex match. -/
theorem C9_parse_never_fails (data : List Nat) :
    (∀ m ∈ floatScan data, (∀ b ∈ token data m, b < 128) ∧
      (parseFloatTok (token data m)).isSome = true) ∧
    (find_floats_in_bytes data).length = (floatScan data).length := by
  have hts : ∀ m ∈ floatScan data, tokenGrammar (token data m) :=
    fun m hm => (tokenGrammar_take (floatScan_shape m hm)).1
  constructor
  · intro m hm
    exact ⟨tokenGrammar_ascii (hts m hm), parseFloatTok_isSome (hts m hm)⟩
  · rw [find_floats_in_bytes]
    apply length_filterMap_of_isSome
    intro m hm
    obtain ⟨q, hq⟩ := Option.isSome_iff_exists.mp (parseFloatTok_isSome (hts m hm))
    rw [hq]
    rfl

/-! ### Claim C7 -/

/-! ### Claim C8 -/

theorem fracDigits7_length (m : Nat) : (fracDigits7 m).length = 7 := by
  simp [fracDigits7]

theorem fracDigits7_digits (m : Nat) :
    ∀ c ∈ fracDigits7 m, c.isDigit = true := by
  intro c hc
  simp only [fracDigits7, List.mem_map, List.mem_reverse, List.mem_range] at hc
  obtain ⟨i, -, rfl⟩ := hc
  have hd : m / 10 ^ i % 10 < 10 := Nat.mod_lt _ (by norm_num)
  set d := m / 10 ^ i % 10 with hdef
  clear_value d
  interval_cases d <;> decide

theorem format7_sevenDecimals (x : ℚ) : sevenDecimals (format7 x) :=
  ⟨(if x < 0 then "-" else "") ++
      String.mk (natDigits ((round (x * 10000000)).natAbs / 10000000)),
    fracDigits7 ((round (x * 10000000)).natAbs % 10000000), rfl,
    fracDigits7_length _, fracDigits7_digits _⟩

/-- C8: the Output Formatter produces exactly one of two artifacts: for a
selected pair the literal header line then one line with longitude and
latitude each shown with exactly seven decimal places, comma-separated;
for no candidate the single diagnostic line naming the input path, with no
header line. -/
theorem C8_formatter (chosen : Option CoordinatePair) (inp : String) :
    (∀ c, chosen = some c →
      formatOutput chosen inp =
        "longitude,latitude\n" ++ format7 c.lon ++ "," ++ format7 c.lat ++ "\n" ∧
      sevenDecimals (format7 c.lon) ∧ sevenDecimals (format7 c.lat)) ∧
    (chosen = none →
      formatOutput chosen inp = "No longitude/latitude found in " ++ inp ++ "\n" ∧
      ∀ r : String, formatOutput chosen inp ≠ "longitude,latitude" ++ r) := by
  constructor
  · rintro c rfl
    exact ⟨rfl, format7_sevenDecimals _, format7_sevenDecimals _⟩
  · rintro rfl
    refine ⟨rfl, ?_⟩
    intro r hcontra
    simp only [formatOutput] at hcontra
    have h1 : ("No longitude/latitude found in " ++ inp ++ "\n").data.head? =
        some 'N' := by
      rw [String.data_append, String.data_append]
      rfl
    have h2 : ("longitude,latitude" ++ r).data.head? = some 'l' := by
      rw [String.data_append]
      rfl
    rw [hcontra, h2] at h1
    exact absurd h1 (by decide)

/-- Witness for C8 at a concrete Selection and input path, for both the
found and the not-found artifact shapes. -/
theorem C8_formatter_witness :
    (formatOutput
        (some { pos1 := 0, pos2 := 10, lon := -122.0591, lat := 37.9361 })
        "in.mov" =
      "longitude,latitude\n" ++
        format7 (({ pos1 := 0, pos2 := 10, lon := -122.0591, lat := 37.9361 } : CoordinatePair)).lon ++ "," ++
        format7 (({ pos1 := 0, pos2 := 10, lon := -122.0591, lat := 37.9361 } : CoordinatePair)).lat ++ "\n" ∧
      sevenDecimals
        (format7 (({ pos1 := 0, pos2 := 10, lon := -122.0591, lat := 37.9361 } : CoordinatePair)).lon) ∧
      sevenDecimals
        (format7 (({ pos1 := 0, pos2 := 10, lon := -122.0591, lat := 37.9361 } : CoordinatePair)).lat)) ∧
    (formatOutput none "in.mov" =
      "No longitude/latitude found in " ++ "in.mov" ++ "\n" ∧
      ∀ r : String, formatOutput none "in.mov" ≠ "longitude,latitude" ++ r) :=
  ⟨(C8_formatter
      (some { pos1 := 0, pos2 := 10, lon := -122.0591, lat := 37.9361 })
      "in.mov").1 _ rfl,
    (C8_formatter none "in.mov").2 rfl⟩

/-- C7: a run whose input path does not exist returns the distinct non-zero
exit code 2 and writes no output; a run whose input path exists writes the
artifact and returns exit code zero, also in the not-found outcome. -/
theorem C7_exit_status (data : List Nat) (inp : String) :
    gps_main false data inp = RunResult.noOutput 2 ∧ (2 : Nat) ≠ 0 ∧
      gps_main true data inp =
        RunResult.wrote (formatOutput (mainChosen data) inp) 0 :=
  ⟨rfl, by decide, rfl⟩

end GPSExtract
